import Mathlib

set_option maxHeartbeats 1000000

/-!
A shallow embedding of the HLS transcoder core: the job-state store, the
per-file 4-bitrate package builder, the archive step, the job orchestrator
(`transcode`), the cleanup sweep, the synchronous single-file mode, and the
download route.

External effects are explicit inputs of the model:
an oracle (`Nat → EncodeResult`) gives each ffmpeg invocation's outcome in
invocation order; the archiver step's outcome is an input (`zipErr`);
directory listings are passed as values; time is an integer millisecond
timestamp (the source stores an ISO string and parses it back).
File-system writes performed by the code are recorded in an event trace so
that "a directory/manifest was (not) created" is statable.
-/

namespace HLS

/-- The job root directory used by the service. -/
def TEMP_DIR : String := "/tmp/hls-jobs"

/-- One uploaded source file as handed to the pipeline. -/
structure UploadFile where
  originalName : String
  path : String
  deriving DecidableEq

/-- One file's progress entry inside a job, as built by initJob. -/
structure FileEntry where
  name : String
  status : String
  hlsFolder : Option String
  segmentCount : Nat
  error : Option String
  deriving DecidableEq

/-- A job record, as built by initJob and mutated by the pipeline.
startedAt/completedAt are millisecond timestamps (ISO strings in the
source, parsed back with Date.getTime for the sweep). -/
structure Job where
  jobId : String
  status : String
  startedAt : Int
  files : List FileEntry
  completedFiles : Nat
  failedFiles : Nat
  zipPath : Option String
  error : Option String
  completedAt : Option Int := none
  deriving DecidableEq

/-- JS Map.get on the store: first binding for the key (keys are unique
in an actual Map). -/
def mapGet : List (String × Job) → String → Option Job
  | [], _ => none
  | (k, v) :: rest, key => if k = key then some v else mapGet rest key

/-- JS Map.set: replace the binding in place if the key exists, else append. -/
def mapSet : List (String × Job) → String → Job → List (String × Job)
  | [], key, v => [(key, v)]
  | (k, w) :: rest, key, v =>
    if k = key then (key, v) :: rest else (k, w) :: mapSet rest key v

/-- JS Map.delete: remove the binding for the key (the first one; unique in
an actual Map). -/
def mapDelete : List (String × Job) → String → List (String × Job)
  | [], _ => []
  | (k, w) :: rest, key => if k = key then rest else (k, w) :: mapDelete rest key

/-- files.map(f => ({name: f.originalName, status: 'pending', ...})) -/
def initFileEntry (f : UploadFile) : FileEntry :=
  { name := f.originalName, status := "pending", hlsFolder := none,
    segmentCount := 0, error := none }

/-- initJob(jobId, files): build the fresh job record and jobs.set it
(no existence check is performed by the source). Returns the job and the
updated store. -/
def initJob (m : List (String × Job)) (jobId : String) (now : Int)
    (files : List UploadFile) : Job × List (String × Job) :=
  let job : Job :=
    { jobId := jobId, status := "processing", startedAt := now,
      files := files.map initFileEntry,
      completedFiles := 0, failedFiles := 0, zipPath := none, error := none }
  (job, mapSet m jobId job)

/-- job.files.filter(f => f.status === s).length -/
def countStatus (fs : List FileEntry) (s : String) : Nat :=
  (fs.filter (fun f => f.status == s)).length

/-- The `updates` object passed to updateFileStatus: each field is present
(to be merged by Object.assign) or absent. -/
structure FileUpdates where
  status : Option String := none
  hlsFolder : Option (Option String) := none
  segmentCount : Option Nat := none
  error : Option (Option String) := none

/-- Object.assign(file, updates): merge the present fields into the entry. -/
def applyUpdates (f : FileEntry) (u : FileUpdates) : FileEntry :=
  { f with
    status := u.status.getD f.status,
    hlsFolder := u.hlsFolder.getD f.hlsFolder,
    segmentCount := u.segmentCount.getD f.segmentCount,
    error := u.error.getD f.error }

/-- job.files.find(f => f.name === fileName) followed by the in-place
mutation: only the first entry with the given name is updated. -/
def updateFirstFile : List FileEntry → String → FileUpdates → List FileEntry
  | [], _, _ => []
  | f :: rest, n, u =>
    if f.name = n then applyUpdates f u :: rest
    else f :: updateFirstFile rest n u

/-- updateFileStatus(jobId, fileName, updates): no-op when the job is
absent; otherwise merge into the first matching entry (if any) and
recompute both aggregate counters from the entry statuses. -/
def updateFileStatus (m : List (String × Job)) (jobId fileName : String)
    (u : FileUpdates) : List (String × Job) :=
  match mapGet m jobId with
  | none => m
  | some job =>
    let fs := updateFirstFile job.files fileName u
    mapSet m jobId
      { job with files := fs,
                 completedFiles := countStatus fs "completed",
                 failedFiles := countStatus fs "failed" }

/-- getJobStatus(jobId): jobs.get(jobId) || null. -/
def getJobStatus (m : List (String × Job)) (jobId : String) : Option Job :=
  mapGet m jobId

/-- One entry of the 4-bitrate ladder configuration. -/
structure LadderEntry where
  name : String
  bitrate : String
  bandwidth : Nat
  deriving DecidableEq

/-- BITRATE_LADDER, in the source's fixed low-to-high order. -/
def BITRATE_LADDER : List LadderEntry :=
  [{ name := "low", bitrate := "32k", bandwidth := 48000 },
   { name := "medium", bitrate := "64k", bandwidth := 96000 },
   { name := "high", bitrate := "96k", bandwidth := 144000 },
   { name := "premium", bitrate := "128k", bandwidth := 192000 }]

/-- Outcome of one ffmpeg invocation, supplied by the environment:
clean exit with a segment count, non-zero exit with a stderr tail, or a
spawn error (the process never started). -/
inductive EncodeResult where
  | ok (segmentCount : Nat)
  | exitErr (code : Int) (stderrTail : String)
  | launchErr (message : String)
  deriving DecidableEq

/-- transcodeVariant's resolve/reject as a function of the ffmpeg outcome:
resolve the segment count on exit code 0, otherwise reject with the
source's error message (or the spawn error itself). -/
def transcodeVariant : EncodeResult → Except String Nat
  | .ok n => .ok n
  | .exitErr c tail => .error ("FFmpeg exited with code " ++ toString c ++ ": " ++ tail)
  | .launchErr msg => .error msg

def EncodeResult.isOk : EncodeResult → Bool
  | .ok _ => true
  | .exitErr _ _ => false
  | .launchErr _ => false

/-- The rejection message transcodeVariant produces for a failing outcome. -/
def EncodeResult.errMsg : EncodeResult → String
  | .ok _ => ""
  | .exitErr c tail => "FFmpeg exited with code " ++ toString c ++ ": " ++ tail
  | .launchErr msg => msg

/-- The segment count of a successful outcome (0 for failures). -/
def EncodeResult.segs : EncodeResult → Nat
  | .ok n => n
  | .exitErr _ _ => 0
  | .launchErr _ => 0

/-- File-system side effects recorded by the model. -/
inductive Event where
  | mkdirEv (dirPath : String)
  | encodeEv (inputPath : String) (variantName : String) (bitrate : String) (dirPath : String)
  | writeMasterEv (filePath : String)
  | zipCreateEv (dirPath : String)
  deriving DecidableEq

/-- path.join of two components as used throughout the source. -/
def pathJoin (a b : String) : String := a ++ "/" ++ b

/-- The final path component (what path.basename keeps before extension
handling). -/
def lastComponent (p : String) : String :=
  String.mk ((p.data.reverse.takeWhile (fun c => c != '/')).reverse)

/-- Node's second-argument handling in path.basename(p, '.mp3'): the
suffix is removed only when it matches exactly (case-sensitively) and the
name is strictly longer than the suffix. -/
def stripMp3 (s : String) : String :=
  if 4 < s.data.length && s.data.drop (s.data.length - 4) == [ '.', 'm', 'p', '3' ]
  then String.mk (s.data.take (s.data.length - 4)) else s

/-- path.basename(fileName, '.mp3') as called by transcodeFile. -/
def basenameNoMp3 (p : String) : String := stripMp3 (lastComponent p)

/-- JS parseInt on a string such as '32k': the leading digits. -/
def parseIntLeadingAux : List Char → Nat → Nat
  | [], acc => acc
  | c :: rest, acc =>
    if c.isDigit then parseIntLeadingAux rest (acc * 10 + (c.toNat - 48)) else acc

def parseIntLeading (s : String) : Nat := parseIntLeadingAux s.data 0

/-- One element of transcodeFile's variants array. -/
structure VariantMeta where
  name : String
  bitrate : Nat
  bandwidth : Nat
  segmentCount : Nat
  deriving DecidableEq

/-- transcodeFile's resolved value. -/
structure FileResult where
  hlsFolder : String
  segmentCount : Nat
  hlsDir : String
  variants : List VariantMeta
  deriving DecidableEq

/-- The per-variant loop of transcodeFile: walk the ladder in order,
invoking the encoder (oracle outcome k for the k-th invocation); on the
first rejection the whole loop rejects with that error; on success collect
the variants array and the summed segment count. The event list records
the encoder invocations actually made. -/
def transcodeFileLoop (oracle : Nat → EncodeResult) (inputPath hlsDir : String) :
    List LadderEntry → Nat → Except String (List VariantMeta × Nat) × List Event
  | [], _ => (.ok ([], 0), [])
  | v :: rest, k =>
    let dir := pathJoin hlsDir v.name
    match transcodeVariant (oracle k) with
    | .ok n =>
      match transcodeFileLoop oracle inputPath hlsDir rest (k + 1) with
      | (.ok (vs, tot), evs) =>
        (.ok ({ name := v.name, bitrate := parseIntLeading v.bitrate,
                bandwidth := v.bandwidth, segmentCount := n } :: vs, n + tot),
         .encodeEv inputPath v.name v.bitrate dir :: evs)
      | (.error e, evs) => (.error e, .encodeEv inputPath v.name v.bitrate dir :: evs)
    | .error e => (.error e, [Event.encodeEv inputPath v.name v.bitrate dir])

/-- transcodeFile(inputPath, outputDir, fileName): derive the package
folder from the file name, create every variant directory up front, run
the ladder, and only when every variant succeeded write the master
playlist and resolve. -/
def transcodeFile (oracle : Nat → EncodeResult)
    (inputPath outputDir fileName : String) :
    Except String FileResult × List Event :=
  let baseName := basenameNoMp3 fileName
  let hlsDir := pathJoin outputDir baseName
  let mkdirs := BITRATE_LADDER.map (fun v => Event.mkdirEv (pathJoin hlsDir v.name))
  match transcodeFileLoop oracle inputPath hlsDir BITRATE_LADDER 0 with
  | (.ok (vs, tot), evs) =>
    (.ok { hlsFolder := baseName, segmentCount := tot, hlsDir := hlsDir, variants := vs },
     mkdirs ++ evs ++ [Event.writeMasterEv (pathJoin hlsDir "master.m3u8")])
  | (.error e, evs) => (.error e, mkdirs ++ evs)

/-- One entry of the job directory's listing, as seen by fs.readdirSync
plus fs.statSync. -/
structure DirEntry where
  name : String
  isDir : Bool
  deriving DecidableEq

/-- createZipArchive(jobId, outputDir), given the output directory's
listing: the produced zip path and the names of the directories included —
every immediate sub-directory except 'uploads', each added wholesale
(archiver preserves its internal structure). -/
def createZipArchive (outputDir : String) (listing : List DirEntry) :
    String × List String :=
  (pathJoin outputDir "hls-output.zip",
   (listing.filter (fun e => e.isDir && e.name != "uploads")).map (fun e => e.name))

/-- The external world as seen by one transcode(jobId, files) run:
encOracle i gives file i's ffmpeg outcomes, zipErr the archiver error
event if any (none = the zip stream closed normally), endNow the clock at
completion. -/
structure TranscodeEnv where
  encOracle : Nat → Nat → EncodeResult
  zipErr : Option String
  endNow : Int

/-- The per-file loop of transcode: mark processing, run transcodeFile,
record completed (with folder and count) or failed (with the message) —
the per-file try/catch — and continue with the next file. -/
def processFiles (env : TranscodeEnv) (jobId jobDir : String) :
    List UploadFile → Nat → List (String × Job) →
    List (String × Job) × List Event
  | [], _, m => (m, [])
  | f :: rest, idx, m =>
    let m1 := updateFileStatus m jobId f.originalName { status := some "processing" }
    let fres := transcodeFile (env.encOracle idx) f.path jobDir f.originalName
    let m2 := match fres.1 with
      | .ok r => updateFileStatus m1 jobId f.originalName
          { status := some "completed", hlsFolder := some (some r.hlsFolder),
            segmentCount := some r.segmentCount }
      | .error e => updateFileStatus m1 jobId f.originalName
          { status := some "failed", error := some (some e) }
    let next := processFiles env jobId jobDir rest (idx + 1) m2
    (next.1, fres.2 ++ next.2)

/-- transcode(jobId, files): initJob, run the per-file loop, then settle
the terminal state: with at least one completed file, invoke the archiver
(zipCreateEv) — on success set zipPath and completed / completed_with_errors
by failedFiles; if the archiver rejects, the surrounding catch marks the
job failed with that error; with zero completed files, mark failed with
'All files failed to transcode' without invoking the archiver. -/
def transcode (env : TranscodeEnv) (jobId : String) (now : Int)
    (files : List UploadFile) (m0 : List (String × Job)) :
    List (String × Job) × List Event :=
  let ini := initJob m0 jobId now files
  let jobDir := pathJoin TEMP_DIR jobId
  let pf := processFiles env jobId jobDir files 0 ini.2
  match mapGet pf.1 jobId with
  | none => pf
  | some job =>
    if 0 < countStatus job.files "completed" then
      match env.zipErr with
      | none =>
        (mapSet pf.1 jobId
          { job with zipPath := some (pathJoin jobDir "hls-output.zip"),
                     status := if 0 < job.failedFiles then "completed_with_errors"
                               else "completed",
                     completedAt := some env.endNow },
         pf.2 ++ [Event.zipCreateEv jobDir])
      | some e =>
        (mapSet pf.1 jobId
          { job with status := "failed", error := some e,
                     completedAt := some env.endNow },
         pf.2 ++ [Event.zipCreateEv jobDir])
    else
      (mapSet pf.1 jobId
        { job with status := "failed", error := some "All files failed to transcode",
                   completedAt := some env.endNow },
       pf.2)

/-- The mutable world the cleanup functions touch: the jobs map and the
set of existing on-disk job directories. -/
structure SysState where
  jobsMap : List (String × Job)
  dirs : List String
  deriving DecidableEq

/-- cleanupJob(jobId): rmSync the job directory (recursive, force — net
effect: the path is gone) and jobs.delete(jobId). -/
def cleanupJob (s : SysState) (jobId : String) : SysState :=
  { jobsMap := mapDelete s.jobsMap jobId,
    dirs := s.dirs.filter (fun d => d != pathJoin TEMP_DIR jobId) }

/-- The iteration of cleanupOldJobs over the entries snapshot: delete each
visited job whose age strictly exceeds maxAge milliseconds. -/
def sweepList (now maxAge : Int) : List (String × Job) → SysState → SysState
  | [], s => s
  | (k, j) :: rest, s =>
    sweepList now maxAge rest
      (if maxAge < now - j.startedAt then cleanupJob s k else s)

/-- cleanupOldJobs(maxAgeMinutes). -/
def cleanupOldJobs (s : SysState) (now : Int) (maxAgeMinutes : Int) : SysState :=
  sweepList now (maxAgeMinutes * 60 * 1000) s.jobsMap s

/-- transcodeSync's return value: the success record or the
success:false record with the error message. -/
inductive SyncResult where
  | ok (hlsFolder : String) (segmentCount : Nat) (files : List String)
  | err (error : String)
  deriving DecidableEq

/-- transcodeSync(jobId, file): ensure the job directory, run transcodeFile
inline, and return either the success record (HLS files collected by the
disk walk `walk`) or success:false with the error message. The jobs map is
never touched (the source never references it here), and no archive step
exists on this path; the store is returned unchanged alongside the events. -/
def transcodeSync (oracle : Nat → EncodeResult) (walk : String → List String)
    (jobId : String) (f : UploadFile) (m : List (String × Job)) :
    SyncResult × List (String × Job) × List Event :=
  let jobDir := pathJoin TEMP_DIR jobId
  match transcodeFile oracle f.path jobDir f.originalName with
  | (.ok r, evs) =>
    (.ok r.hlsFolder r.segmentCount (walk r.hlsDir), m, Event.mkdirEv jobDir :: evs)
  | (.error e, evs) => (.err e, m, Event.mkdirEv jobDir :: evs)

/-- The responses the download route can produce. -/
inductive HttpResponse where
  | notFound (error : String)
  | badRequest (error : String) (jobStatus : String)
  | fileDownload (filePath : String) (downloadName : String)
  deriving DecidableEq

/-- GET /download/:jobId — 404 when the job is unknown, 400 when
status !== 'completed', 404 when zipPath is unset or the file is gone,
else res.download of the archive. -/
def downloadHandler (m : List (String × Job)) (fileExists : String → Bool)
    (jobId : String) : HttpResponse :=
  match getJobStatus m jobId with
  | none => .notFound "Job not found"
  | some st =>
    if st.status != "completed" then .badRequest "Job not yet completed" st.status
    else
      match st.zipPath with
      | none => .notFound "ZIP file not found"
      | some zp =>
        if fileExists zp then .fileDownload zp ("hls-" ++ jobId ++ ".zip")
        else .notFound "ZIP file not found"

/-- 4xx responses (both 404s and the 400). -/
def HttpResponse.isClientError : HttpResponse → Bool
  | .notFound _ => true
  | .badRequest _ _ => true
  | .fileDownload _ _ => false

def HttpResponse.isDownload : HttpResponse → Bool
  | .fileDownload _ _ => true
  | .notFound _ => false
  | .badRequest _ _ => false

/-- The counter facts the spec states for every job: both counters equal
the recount from the entry statuses, their sum counts exactly the entries
in a terminal status, and that sum is at most the number of entries. -/
def countersSpec (j : Job) : Prop :=
  j.completedFiles = countStatus j.files "completed" ∧
  j.failedFiles = countStatus j.files "failed" ∧
  j.completedFiles + j.failedFiles =
    (j.files.filter (fun f => f.status == "completed" || f.status == "failed")).length ∧
  j.completedFiles + j.failedFiles ≤ j.files.length

/-- Every job present in a store satisfies countersSpec. -/
def storeInv (m : List (String × Job)) : Prop :=
  ∀ k j, mapGet m k = some j → countersSpec j

/-! ### Concrete sample data used by witnesses and counterexamples -/

deriving instance DecidableEq for Except

/-- The build result okOracle produces for track.mp3 in job-6. -/
def trackRes : FileResult :=
  { hlsFolder := "track", segmentCount := 18,
    hlsDir := "/tmp/hls-jobs/job-6/track",
    variants := [⟨"low", 32, 48000, 3⟩, ⟨"medium", 64, 96000, 4⟩,
                 ⟨"high", 96, 144000, 5⟩, ⟨"premium", 128, 192000, 6⟩] }

/-- An oracle on which every ffmpeg invocation succeeds (invocation k
produces k + 3 segments). -/
def okOracle : Nat → EncodeResult := fun k => .ok (k + 3)

/-- An oracle on which every ffmpeg spawn fails. -/
def failOracle : Nat → EncodeResult := fun _ => .launchErr "spawn ffmpeg ENOENT"

/-- The package folder of a successful build result ("" for a failure). -/
def folderOf : Except String FileResult → String
  | .ok r => r.hlsFolder
  | .error _ => ""

/-- A store with one job holding two equally-named pending entries. -/
def demoStore : List (String × Job) :=
  (initJob [] "job-1" 0
    [⟨"x.mp3", "/tmp/hls-jobs/job-1/uploads/x.mp3"⟩,
     ⟨"x.mp3", "/tmp/hls-jobs/job-1/uploads/x2.mp3"⟩]).2

/-- demoStore after completing the (first) entry named x.mp3. -/
def dupStore : List (String × Job) :=
  updateFileStatus demoStore "job-1" "x.mp3"
    { status := some "completed", hlsFolder := some (some "x"), segmentCount := some 4 }

/-- An environment where every encode succeeds but the archiver rejects. -/
def zipFailEnv : TranscodeEnv :=
  { encOracle := fun _ _ => .ok 2, zipErr := some "ENOSPC: no space left on device",
    endNow := 99 }

/-- An environment where file 0 succeeds and every other file fails. -/
def mixedEnv : TranscodeEnv :=
  { encOracle := fun i k =>
      if i == 0 then .ok (k + 1) else .launchErr "spawn ffmpeg ENOENT",
    zipErr := none, endNow := 60 }

/-- A job old enough to be swept in the witness scenario. -/
def oldJob : Job :=
  { jobId := "job-a", status := "processing", startedAt := 0, files := [],
    completedFiles := 0, failedFiles := 0, zipPath := none, error := none }

/-- A job too young to be swept in the witness scenario. -/
def freshJob : Job :=
  { jobId := "job-b", status := "completed", startedAt := 7000000, files := [],
    completedFiles := 0, failedFiles := 0,
    zipPath := some "/tmp/hls-jobs/job-b/hls-output.zip", error := none }

/-- A system state with one stale and one fresh job and both job dirs. -/
def demoSys : SysState :=
  { jobsMap := [("job-a", oldJob), ("job-b", freshJob)],
    dirs := [pathJoin TEMP_DIR "job-a", pathJoin TEMP_DIR "job-b"] }

/-- A finished job in completed_with_errors with its archive present. -/
def cweJob : Job :=
  { jobId := "job-2", status := "completed_with_errors", startedAt := 0,
    files := [⟨"a.mp3", "completed", some "a", 7, none⟩,
              ⟨"b.mp3", "failed", none, 0, some "boom"⟩],
    completedFiles := 1, failedFiles := 1,
    zipPath := some "/tmp/hls-jobs/job-2/hls-output.zip",
    error := none, completedAt := some 9 }

/-! ### Store lemmas -/

theorem string_beq_eq_decide (a b : String) : (a == b) = decide (a = b) := by
  cases hb : a == b
  · have h : ¬ a = b := by
      intro hh
      subst hh
      simp at hb
    simp [h]
  · have h : a = b := eq_of_beq hb
    simp [h]

theorem mapGet_mapSet_self (m : List (String × Job)) (k : String) (v : Job) :
    mapGet (mapSet m k v) k = some v := by
  induction m with
  | nil => simp [mapGet, mapSet]
  | cons kv rest ih =>
    obtain ⟨k0, w⟩ := kv
    by_cases h : k0 = k
    · simp [mapSet, h, mapGet]
    · simp [mapSet, h, mapGet, ih]

theorem mapGet_mapSet_ne (m : List (String × Job)) (k k' : String) (v : Job)
    (h : k' ≠ k) : mapGet (mapSet m k v) k' = mapGet m k' := by
  induction m with
  | nil => simp [mapGet, mapSet, Ne.symm h]
  | cons kv rest ih =>
    obtain ⟨k0, w⟩ := kv
    by_cases h0 : k0 = k
    · subst h0
      simp [mapSet, mapGet, Ne.symm h]
    · by_cases h1 : k0 = k'
      · subst h1
        simp [mapSet, h0, mapGet, ih]
      · simp [mapSet, h0, mapGet, h1, ih]

theorem countStatus_le_length (fs : List FileEntry) (s : String) :
    countStatus fs s ≤ fs.length := by
  simpa [countStatus] using List.length_filter_le (fun f => f.status == s) fs

theorem countStatus_cons (f : FileEntry) (rest : List FileEntry) (s : String) :
    countStatus (f :: rest) s =
    (if f.status = s then 1 else 0) + countStatus rest s := by
  by_cases h : f.status = s
  · simp [countStatus, List.filter_cons, string_beq_eq_decide, h]
    omega
  · simp [countStatus, List.filter_cons, string_beq_eq_decide, h]

theorem countStatus_eq_zero (fs : List FileEntry) (s : String)
    (h : ∀ f ∈ fs, f.status ≠ s) : countStatus fs s = 0 := by
  induction fs with
  | nil => rfl
  | cons f rest ih =>
    rw [countStatus_cons, if_neg (h f (by simp))]
    simpa using ih fun g hg => h g (by simp [hg])

theorem countStatus_add_eq (fs : List FileEntry) :
    countStatus fs "completed" + countStatus fs "failed" =
    (fs.filter (fun f => f.status == "completed" || f.status == "failed")).length := by
  induction fs with
  | nil => rfl
  | cons f rest ih =>
    rw [countStatus_cons, countStatus_cons, List.filter_cons]
    simp only [string_beq_eq_decide] at ih ⊢
    by_cases hc : f.status = "completed" <;> by_cases hf : f.status = "failed"
    · exact absurd (hc ▸ hf) (by decide)
    all_goals simp [hc, hf]
    all_goals omega

theorem countersSpec_of_counts (j : Job)
    (hc : j.completedFiles = countStatus j.files "completed")
    (hf : j.failedFiles = countStatus j.files "failed") : countersSpec j := by
  refine ⟨hc, hf, ?_, ?_⟩
  · rw [hc, hf]
    exact countStatus_add_eq j.files
  · rw [hc, hf, countStatus_add_eq]
    exact List.length_filter_le _ _

theorem countStatus_map_initFileEntry (files : List UploadFile) (s : String)
    (h : s ≠ "pending") : countStatus (files.map initFileEntry) s = 0 := by
  refine countStatus_eq_zero _ _ ?_
  intro f hf
  rw [List.mem_map] at hf
  obtain ⟨x, _, rfl⟩ := hf
  simpa [initFileEntry] using Ne.symm h

/-! ### Claim theorems -/

/-- Claim C1: after initJob and after every updateFileStatus call, every
job in the store has completedFiles equal to the number of entries with
status 'completed' and failedFiles equal to the number with status
'failed'; hence their sum counts exactly the entries in a terminal status
and is at most the number of files. Both operations recompute the
counters from the entry statuses rather than incrementing them. -/
theorem initJob_updateFileStatus_counters (m : List (String × Job))
    (jobId : String) (now : Int) (files : List UploadFile)
    (fileName : String) (u : FileUpdates) (hm : storeInv m) :
    storeInv (initJob m jobId now files).2 ∧
    storeInv (updateFileStatus m jobId fileName u) := by
  constructor
  · intro k j hk
    simp only [initJob] at hk
    by_cases h : k = jobId
    · subst h
      rw [mapGet_mapSet_self] at hk
      cases hk
      refine countersSpec_of_counts _ ?_ ?_
      · exact (countStatus_map_initFileEntry files "completed" (by decide)).symm
      · exact (countStatus_map_initFileEntry files "failed" (by decide)).symm
    · rw [mapGet_mapSet_ne _ _ _ _ h] at hk
      exact hm k j hk
  · intro k j hk
    cases hmg : mapGet m jobId with
    | none =>
      simp only [updateFileStatus, hmg] at hk
      exact hm k j hk
    | some job =>
      simp only [updateFileStatus, hmg] at hk
      by_cases h : k = jobId
      · subst h
        rw [mapGet_mapSet_self] at hk
        cases hk
        exact countersSpec_of_counts _ rfl rfl
      · rw [mapGet_mapSet_ne _ _ _ _ h] at hk
        exact hm k j hk

/-- Witness for C1 at a concrete store, job and update. -/
theorem initJob_updateFileStatus_counters_witness :
    storeInv (initJob [] "job-1" 0
      [{ originalName := "a.mp3", path := "/tmp/hls-jobs/job-1/uploads/a.mp3" }]).2 ∧
    storeInv (updateFileStatus [] "job-1" "a.mp3" { status := some "completed" }) :=
  initJob_updateFileStatus_counters [] "job-1" 0
    [{ originalName := "a.mp3", path := "/tmp/hls-jobs/job-1/uploads/a.mp3" }]
    "a.mp3" { status := some "completed" }
    (fun k j h => by simp [mapGet] at h)

theorem updateFirstFile_of_no_match (fs : List FileEntry) (n : String)
    (u : FileUpdates) (h : ∀ f ∈ fs, f.name ≠ n) :
    updateFirstFile fs n u = fs := by
  induction fs with
  | nil => rfl
  | cons f rest ih =>
    simp [updateFirstFile, h f (by simp), ih fun g hg => h g (by simp [hg])]

theorem updateFirstFile_first_match (pre : List FileEntry) (f : FileEntry)
    (post : List FileEntry) (n : String) (u : FileUpdates)
    (hf : f.name = n) (hpre : ∀ g ∈ pre, g.name ≠ n) :
    updateFirstFile (pre ++ f :: post) n u = pre ++ applyUpdates f u :: post := by
  induction pre with
  | nil => simp [updateFirstFile, hf]
  | cons g rest ih =>
    simp [updateFirstFile, hpre g (by simp),
      ih fun g2 hg => hpre g2 (by simp [hg])]

theorem updateFirstFile_length (fs : List FileEntry) (n : String) (u : FileUpdates) :
    (updateFirstFile fs n u).length = fs.length := by
  induction fs with
  | nil => rfl
  | cons f rest ih =>
    by_cases h : f.name = n <;> simp [updateFirstFile, h, ih]

/-- Claim C7: updateFileStatus is a no-op when the job id is absent (so a
stale update after deletion never re-creates the job), leaves other jobs
untouched, silently leaves every FileEntry unchanged when no entry has
the given name, and otherwise merges the fields into the first entry with
that name (duplicates target the first match) while recomputing both
aggregate counters in the same operation. -/
theorem updateFileStatus_contract (m : List (String × Job))
    (jobId fileName : String) (u : FileUpdates) :
    (mapGet m jobId = none → updateFileStatus m jobId fileName u = m) ∧
    (∀ k, k ≠ jobId → mapGet (updateFileStatus m jobId fileName u) k = mapGet m k) ∧
    (∀ job, mapGet m jobId = some job →
      ∃ job', mapGet (updateFileStatus m jobId fileName u) jobId = some job' ∧
        job'.files = updateFirstFile job.files fileName u ∧
        job'.completedFiles = countStatus job'.files "completed" ∧
        job'.failedFiles = countStatus job'.files "failed" ∧
        ((∀ f ∈ job.files, f.name ≠ fileName) → job'.files = job.files) ∧
        (∀ pre f post, job.files = pre ++ f :: post → f.name = fileName →
          (∀ g ∈ pre, g.name ≠ fileName) →
          job'.files = pre ++ applyUpdates f u :: post)) := by
  refine ⟨?_, ?_, ?_⟩
  · intro h
    simp [updateFileStatus, h]
  · intro k hk
    cases hmg : mapGet m jobId with
    | none => simp [updateFileStatus, hmg]
    | some job => simp [updateFileStatus, hmg, mapGet_mapSet_ne _ _ _ _ hk]
  · intro job hmg
    refine ⟨{ job with files := updateFirstFile job.files fileName u, completedFiles := countStatus (updateFirstFile job.files fileName u) "completed", failedFiles := countStatus (updateFirstFile job.files fileName u) "failed" },
            by simp [updateFileStatus, hmg, mapGet_mapSet_self], rfl, rfl, rfl, ?_, ?_⟩
    · intro hno
      exact updateFirstFile_of_no_match _ _ _ hno
    · intro pre f post hsplit hf hpre
      show updateFirstFile job.files fileName u = pre ++ applyUpdates f u :: post
      rw [hsplit]
      exact updateFirstFile_first_match pre f post fileName u hf hpre

/-- Witness for C7: the store is untouched for an unknown id, and with two
entries both named x.mp3 only the first is updated while the counters are
recomputed. -/
theorem updateFileStatus_contract_witness :
    updateFileStatus [] "job-1" "x.mp3" { status := some "completed" } = [] ∧
    (∃ job', mapGet (updateFileStatus demoStore "job-1" "x.mp3"
        { status := some "completed", hlsFolder := some (some "x"), segmentCount := some 4 })
        "job-1" = some job' ∧
      job'.files = [⟨"x.mp3", "completed", some "x", 4, none⟩,
                    ⟨"x.mp3", "pending", none, 0, none⟩] ∧
      job'.completedFiles = 1 ∧ job'.failedFiles = 0) := by
  constructor
  · exact (updateFileStatus_contract [] "job-1" "x.mp3" { status := some "completed" }).1 rfl
  · obtain ⟨job', hget, hfiles, hc, hf, -, hfirst⟩ :=
      (updateFileStatus_contract demoStore "job-1" "x.mp3"
        { status := some "completed", hlsFolder := some (some "x"), segmentCount := some 4 }).2.2
        (initJob [] "job-1" 0
          [⟨"x.mp3", "/tmp/hls-jobs/job-1/uploads/x.mp3"⟩,
           ⟨"x.mp3", "/tmp/hls-jobs/job-1/uploads/x2.mp3"⟩]).1
        (by decide)
    refine ⟨job', hget, ?_, ?_, ?_⟩
    · rw [hfiles]; decide
    · rw [hc, hfiles]; decide
    · rw [hf, hfiles]; decide

/-- Counterexample to C4: initJob performs no duplicate check — re-using
the id of dupStore's live job replaces its state (the stored job changes)
instead of failing with DuplicateJob and leaving it unchanged. -/
theorem initJob_duplicate_counterexample :
    mapGet (initJob dupStore "job-1" 5 [⟨"y.mp3", "/tmp/hls-jobs/job-1/uploads/y.mp3"⟩]).2
      "job-1" ≠ mapGet dupStore "job-1" := by decide

/-- Claim C4 (amended): initJob performs no duplicate check: for any id,
fresh or already present, it stores a fresh job whose FileEntry are all
'pending' (overwriting any existing job) and returns that job. -/
theorem initJob_overwrites (m : List (String × Job)) (jobId : String)
    (now : Int) (files : List UploadFile) :
    (∀ f ∈ (initJob m jobId now files).1.files, f.status = "pending") ∧
    mapGet (initJob m jobId now files).2 jobId = some (initJob m jobId now files).1 ∧
    (initJob m jobId now files).1.files = files.map initFileEntry := by
  refine ⟨?_, ?_, rfl⟩
  · intro f hf
    simp only [initJob] at hf
    rw [List.mem_map] at hf
    obtain ⟨x, -, rfl⟩ := hf
    rfl
  · simp [initJob, mapGet_mapSet_self]

/-- Witness for C4's amended theorem at the duplicate id of dupStore. -/
theorem initJob_overwrites_witness :
    (∀ f ∈ (initJob dupStore "job-1" 5
        [⟨"y.mp3", "/tmp/hls-jobs/job-1/uploads/y.mp3"⟩]).1.files,
      f.status = "pending") ∧
    mapGet (initJob dupStore "job-1" 5
        [⟨"y.mp3", "/tmp/hls-jobs/job-1/uploads/y.mp3"⟩]).2 "job-1" =
      some (initJob dupStore "job-1" 5
        [⟨"y.mp3", "/tmp/hls-jobs/job-1/uploads/y.mp3"⟩]).1 :=
  ⟨(initJob_overwrites dupStore "job-1" 5
      [⟨"y.mp3", "/tmp/hls-jobs/job-1/uploads/y.mp3"⟩]).1,
   (initJob_overwrites dupStore "job-1" 5
      [⟨"y.mp3", "/tmp/hls-jobs/job-1/uploads/y.mp3"⟩]).2.1⟩

/-- Counterexample to C5: a job in the success state completed_with_errors
with its archive present on disk is rejected with 400 by the download
route instead of being served. -/
theorem downloadHandler_cwe_counterexample :
    downloadHandler [("job-2", cweJob)] (fun _ => true) "job-2" =
      .badRequest "Job not yet completed" "completed_with_errors" := by decide

/-- Claim C5 (amended): the download route serves the archive exactly when
the job exists with status 'completed' (completed_with_errors is rejected
like any non-completed state), zipPath is set and the file exists on disk;
every rejected request gets a 4xx client error, never a server error. -/
theorem downloadHandler_spec (m : List (String × Job))
    (fileExists : String → Bool) (jobId : String) :
    ((downloadHandler m fileExists jobId).isDownload = true ↔
      ∃ j zp, getJobStatus m jobId = some j ∧ j.status = "completed" ∧
        j.zipPath = some zp ∧ fileExists zp = true) ∧
    ((downloadHandler m fileExists jobId).isDownload = false →
      (downloadHandler m fileExists jobId).isClientError = true) := by
  constructor
  · constructor
    · intro h
      cases hmg : getJobStatus m jobId with
      | none => simp [downloadHandler, hmg, HttpResponse.isDownload] at h
      | some st =>
        by_cases hs : st.status = "completed"
        · cases hzp : st.zipPath with
          | none => simp [downloadHandler, hmg, hs, hzp, HttpResponse.isDownload] at h
          | some zp =>
            cases hfe : fileExists zp with
            | false =>
              simp [downloadHandler, hmg, hs, hzp, hfe, HttpResponse.isDownload] at h
            | true =>
              exact ⟨st, zp, rfl, hs, hzp, hfe⟩
        · have hb : (st.status != "completed") = true := by simpa [bne_iff_ne] using hs
          simp [downloadHandler, hmg, hb, HttpResponse.isDownload] at h
    · rintro ⟨j, zp, hj, hjs, hz, he⟩
      simp [downloadHandler, hj, hjs, hz, he, HttpResponse.isDownload]
  · intro h
    cases hr : downloadHandler m fileExists jobId with
    | notFound e => simp [hr, HttpResponse.isClientError]
    | badRequest e s => simp [hr, HttpResponse.isClientError]
    | fileDownload p n =>
      rw [hr] at h
      simp [HttpResponse.isDownload] at h

theorem transcodeVariant_ok_of_isOk (r : EncodeResult) (h : r.isOk = true) :
    transcodeVariant r = .ok r.segs := by
  cases r with
  | ok n => rfl
  | exitErr c t => simp [EncodeResult.isOk] at h
  | launchErr msg => simp [EncodeResult.isOk] at h

theorem transcodeVariant_error_of_not_isOk (r : EncodeResult) (h : r.isOk = false) :
    transcodeVariant r = .error r.errMsg := by
  cases r with
  | ok n => simp [EncodeResult.isOk] at h
  | exitErr c t => rfl
  | launchErr msg => rfl

theorem transcodeFileLoop_all_ok (oracle : Nat → EncodeResult) (inp hlsDir : String) :
    ∀ (ladder : List LadderEntry) (k : Nat),
      (∀ j, j < ladder.length → (oracle (k + j)).isOk = true) →
      ∃ vs tot, transcodeFileLoop oracle inp hlsDir ladder k =
        (.ok (vs, tot),
         ladder.map (fun v => Event.encodeEv inp v.name v.bitrate (pathJoin hlsDir v.name))) := by
  intro ladder
  induction ladder with
  | nil =>
    intro k _
    exact ⟨[], 0, rfl⟩
  | cons v rest ih =>
    intro k h
    have h0 : (oracle k).isOk = true := by simpa using h 0 (by simp)
    obtain ⟨vs, tot, hrec⟩ := ih (k + 1) (fun j hj => by
      have hx := h (j + 1) (by simpa using Nat.succ_lt_succ hj)
      rwa [show k + (j + 1) = k + 1 + j by omega] at hx)
    refine ⟨{ name := v.name, bitrate := parseIntLeading v.bitrate, bandwidth := v.bandwidth, segmentCount := (oracle k).segs } :: vs, (oracle k).segs + tot, ?_⟩
    simp only [transcodeFileLoop, transcodeVariant_ok_of_isOk _ h0, hrec, List.map_cons]

theorem transcodeFileLoop_ok_inv (oracle : Nat → EncodeResult) (inp hlsDir : String) :
    ∀ (ladder : List LadderEntry) (k : Nat) (vs : List VariantMeta) (tot : Nat)
      (evs : List Event),
      transcodeFileLoop oracle inp hlsDir ladder k = (.ok (vs, tot), evs) →
      tot = (vs.map (fun v => v.segmentCount)).sum ∧
      vs.map (fun v => v.name) = ladder.map (fun v => v.name) := by
  intro ladder
  induction ladder with
  | nil =>
    intro k vs tot evs h
    simp only [transcodeFileLoop, Prod.mk.injEq, Except.ok.injEq] at h
    obtain ⟨⟨hvs, htot⟩, -⟩ := h
    subst hvs
    subst htot
    exact ⟨rfl, rfl⟩
  | cons v rest ih =>
    intro k vs tot evs h
    cases ho : transcodeVariant (oracle k) with
    | error e =>
      simp only [transcodeFileLoop, ho] at h
      exact absurd h (by simp)
    | ok n =>
      rcases hrec : transcodeFileLoop oracle inp hlsDir rest (k + 1) with ⟨res2, evs2⟩
      cases res2 with
      | error e2 =>
        simp only [transcodeFileLoop, ho, hrec] at h
        exact absurd h (by simp)
      | ok p =>
        obtain ⟨vs2, tot2⟩ := p
        simp only [transcodeFileLoop, ho, hrec, Prod.mk.injEq, Except.ok.injEq] at h
        obtain ⟨⟨hvs, htot⟩, -⟩ := h
        subst hvs
        subst htot
        obtain ⟨ih1, ih2⟩ := ih (k + 1) vs2 tot2 evs2 hrec
        constructor
        · simp [ih1]
        · simp [ih2]

theorem transcodeFileLoop_first_fail (oracle : Nat → EncodeResult) (inp hlsDir : String) :
    ∀ (ladder : List LadderEntry) (k i : Nat),
      i < ladder.length →
      (∀ j, j < i → (oracle (k + j)).isOk = true) →
      (oracle (k + i)).isOk = false →
      transcodeFileLoop oracle inp hlsDir ladder k =
        (.error ((oracle (k + i)).errMsg),
         (ladder.take (i + 1)).map
           (fun v => Event.encodeEv inp v.name v.bitrate (pathJoin hlsDir v.name))) := by
  intro ladder
  induction ladder with
  | nil =>
    intro k i hi
    simp at hi
  | cons v rest ih =>
    intro k i hi hpre hfail
    cases i with
    | zero =>
      rw [Nat.add_zero] at hfail
      simp only [transcodeFileLoop, transcodeVariant_error_of_not_isOk _ hfail]
      simp
    | succ i2 =>
      have h0 : (oracle k).isOk = true := by simpa using hpre 0 (Nat.succ_pos _)
      have hrec := ih (k + 1) i2 (by simpa using Nat.lt_of_succ_lt_succ hi)
        (fun j hj => by
          have hx := hpre (j + 1) (Nat.succ_lt_succ hj)
          rwa [show k + (j + 1) = k + 1 + j by omega] at hx)
        (by rw [show k + 1 + i2 = k + (i2 + 1) by omega]; exact hfail)
      simp only [transcodeFileLoop, transcodeVariant_ok_of_isOk _ h0, hrec,
        List.take_succ_cons, List.map_cons]
      rw [show k + 1 + i2 = k + (i2 + 1) by omega]

theorem transcodeFileLoop_events_encode (oracle : Nat → EncodeResult) (inp hlsDir : String) :
    ∀ (ladder : List LadderEntry) (k : Nat) (ev : Event),
      ev ∈ (transcodeFileLoop oracle inp hlsDir ladder k).2 →
      ∃ a b c d, ev = Event.encodeEv a b c d := by
  intro ladder
  induction ladder with
  | nil =>
    intro k ev h
    simp [transcodeFileLoop] at h
  | cons v rest ih =>
    intro k ev h
    cases ho : transcodeVariant (oracle k) with
    | error e =>
      simp only [transcodeFileLoop, ho] at h
      simp at h
      exact ⟨_, _, _, _, h⟩
    | ok n =>
      rcases hrec : transcodeFileLoop oracle inp hlsDir rest (k + 1) with ⟨res2, evs2⟩
      have hevs2 : ∀ e2, e2 ∈ evs2 → ∃ a b c d, e2 = Event.encodeEv a b c d := by
        intro e2 he2
        exact ih (k + 1) e2 (by rw [hrec]; exact he2)
      cases res2 with
      | error e2 =>
        simp only [transcodeFileLoop, ho, hrec] at h
        rcases List.mem_cons.mp h with h1 | h1
        · exact ⟨_, _, _, _, h1⟩
        · exact hevs2 ev h1
      | ok p =>
        obtain ⟨vs2, tot2⟩ := p
        simp only [transcodeFileLoop, ho, hrec] at h
        rcases List.mem_cons.mp h with h1 | h1
        · exact ⟨_, _, _, _, h1⟩
        · exact hevs2 ev h1

theorem transcodeFile_no_zip (oracle : Nat → EncodeResult) (inp out fn : String)
    (d : String) : Event.zipCreateEv d ∉ (transcodeFile oracle inp out fn).2 := by
  intro hmem
  rcases hres : transcodeFileLoop oracle inp (pathJoin out (basenameNoMp3 fn))
      BITRATE_LADDER 0 with ⟨res, evs⟩
  have hevs : ∀ e2, e2 ∈ evs → ∃ a b c d2, e2 = Event.encodeEv a b c d2 := by
    intro e2 he2
    exact transcodeFileLoop_events_encode oracle inp _ BITRATE_LADDER 0 e2
      (by rw [hres]; exact he2)
  cases res with
  | ok p =>
    obtain ⟨vs, tot⟩ := p
    simp only [transcodeFile, hres] at hmem
    rcases List.mem_append.mp hmem with h1 | h1
    · rcases List.mem_append.mp h1 with h2 | h2
      · rcases List.mem_map.mp h2 with ⟨v, -, hv⟩
        cases hv
      · obtain ⟨a, b, c, d2, he⟩ := hevs _ h2
        cases he
    · simp at h1
  | error e =>
    simp only [transcodeFile, hres] at hmem
    rcases List.mem_append.mp hmem with h1 | h1
    · rcases List.mem_map.mp h1 with ⟨v, -, hv⟩
      cases hv
    · obtain ⟨a, b, c, d2, he⟩ := hevs _ h1
      cases he

/-- Claim C3: one file's package build is all-or-nothing over the quality
ladder. If every encode succeeds, the variant encoder runs exactly once
per ladder entry in the fixed low-to-high order and the master playlist is
written only after all of them, as the final event. If the i-th invocation
is the first failure, that failure's message propagates as the build's
rejection, only the first i+1 ladder entries were attempted, and no
master playlist write ever happens for that file. -/
theorem transcodeFile_all_or_nothing (oracle : Nat → EncodeResult)
    (inp out fn : String) :
    ((∀ j, j < BITRATE_LADDER.length → (oracle j).isOk = true) →
      (∃ r, (transcodeFile oracle inp out fn).1 = .ok r) ∧
      (transcodeFile oracle inp out fn).2 =
        BITRATE_LADDER.map (fun v =>
          Event.mkdirEv (pathJoin (pathJoin out (basenameNoMp3 fn)) v.name)) ++
        BITRATE_LADDER.map (fun v =>
          Event.encodeEv inp v.name v.bitrate (pathJoin (pathJoin out (basenameNoMp3 fn)) v.name)) ++
        [Event.writeMasterEv (pathJoin (pathJoin out (basenameNoMp3 fn)) "master.m3u8")]) ∧
    (∀ i, i < BITRATE_LADDER.length →
      (∀ j, j < i → (oracle j).isOk = true) →
      (oracle i).isOk = false →
      (transcodeFile oracle inp out fn).1 = .error ((oracle i).errMsg) ∧
      (transcodeFile oracle inp out fn).2 =
        BITRATE_LADDER.map (fun v =>
          Event.mkdirEv (pathJoin (pathJoin out (basenameNoMp3 fn)) v.name)) ++
        (BITRATE_LADDER.take (i + 1)).map (fun v =>
          Event.encodeEv inp v.name v.bitrate (pathJoin (pathJoin out (basenameNoMp3 fn)) v.name)) ∧
      (∀ p, Event.writeMasterEv p ∉ (transcodeFile oracle inp out fn).2)) := by
  constructor
  · intro hall
    obtain ⟨vs, tot, hloop⟩ :=
      transcodeFileLoop_all_ok oracle inp (pathJoin out (basenameNoMp3 fn))
        BITRATE_LADDER 0 (fun j hj => by simpa using hall j hj)
    constructor
    · refine ⟨{ hlsFolder := basenameNoMp3 fn, segmentCount := tot, hlsDir := pathJoin out (basenameNoMp3 fn), variants := vs }, ?_⟩
      simp only [transcodeFile, hloop]
    · simp only [transcodeFile, hloop]
  · intro i hi hpre hfail
    have hloop :=
      transcodeFileLoop_first_fail oracle inp (pathJoin out (basenameNoMp3 fn))
        BITRATE_LADDER 0 i hi (fun j hj => by simpa using hpre j hj)
        (by simpa using hfail)
    refine ⟨?_, ?_, ?_⟩
    · simp only [transcodeFile, hloop]
      simp
    · simp only [transcodeFile, hloop]
    · intro p hp
      simp only [transcodeFile, hloop] at hp
      rcases List.mem_append.mp hp with h1 | h1
      · rcases List.mem_map.mp h1 with ⟨v, -, hv⟩
        cases hv
      · rcases List.mem_map.mp h1 with ⟨v, -, hv⟩
        cases hv

/-- Witness for C3: with the all-success oracle the build succeeds, with
the always-failing oracle the first variant's spawn error propagates. -/
theorem transcodeFile_all_or_nothing_witness :
    (∃ r, (transcodeFile okOracle "/up/a.mp3" "/tmp/hls-jobs/job-5" "a.mp3").1 = .ok r) ∧
    (transcodeFile failOracle "/up/a.mp3" "/tmp/hls-jobs/job-5" "a.mp3").1 =
      .error "spawn ffmpeg ENOENT" :=
  ⟨((transcodeFile_all_or_nothing okOracle "/up/a.mp3" "/tmp/hls-jobs/job-5" "a.mp3").1
      (fun j _ => by simp [okOracle, EncodeResult.isOk])).1,
   ((transcodeFile_all_or_nothing failOracle "/up/a.mp3" "/tmp/hls-jobs/job-5" "a.mp3").2
      0 (by decide) (fun j hj => absurd hj (by omega)) (by decide)).1⟩

/-- Counterexample to C9: path.basename(fileName, '.mp3') strips only an
exact-case '.mp3' suffix, so a successful build for 'Track.MP3' yields the
package folder 'Track.MP3', not 'Track' with the extension stripped. -/
theorem basename_extension_counterexample :
    folderOf (transcodeFile okOracle "/up/Track.MP3" "/tmp/hls-jobs/job-9" "Track.MP3").1 =
      "Track.MP3" ∧ "Track.MP3" ≠ "Track" := by decide

/-- Claim C9 (amended): on success the package folder name is the source
file name's last path component with a trailing exact-case '.mp3'
stripped when present (a name with another or differently-cased extension
keeps it), the total segment count equals the sum of the per-variant
segment counts, and the variants list has one entry per quality-ladder
entry in ladder order. -/
theorem transcodeFile_result_spec (oracle : Nat → EncodeResult)
    (inp out fn : String) (r : FileResult) (evs : List Event)
    (h : transcodeFile oracle inp out fn = (.ok r, evs)) :
    r.hlsFolder = basenameNoMp3 fn ∧
    r.segmentCount = (r.variants.map (fun v => v.segmentCount)).sum ∧
    r.variants.map (fun v => v.name) = BITRATE_LADDER.map (fun v => v.name) := by
  rcases hres : transcodeFileLoop oracle inp (pathJoin out (basenameNoMp3 fn))
      BITRATE_LADDER 0 with ⟨res, evs2⟩
  cases res with
  | error e =>
    simp only [transcodeFile, hres] at h
    exact absurd h (by simp)
  | ok p =>
    obtain ⟨vs, tot⟩ := p
    simp only [transcodeFile, hres, Prod.mk.injEq, Except.ok.injEq] at h
    obtain ⟨hr, -⟩ := h
    subst hr
    obtain ⟨h1, h2⟩ :=
      transcodeFileLoop_ok_inv oracle inp (pathJoin out (basenameNoMp3 fn))
        BITRATE_LADDER 0 vs tot evs2 hres
    exact ⟨rfl, h1, h2⟩

/-- Witness for C9's amended theorem: the okOracle run on track.mp3. -/
theorem transcodeFile_result_spec_witness :
    trackRes.hlsFolder = basenameNoMp3 "track.mp3" ∧
    trackRes.hlsFolder = "track" ∧
    trackRes.segmentCount = (trackRes.variants.map (fun v => v.segmentCount)).sum ∧
    trackRes.variants.map (fun v => v.name) = BITRATE_LADDER.map (fun v => v.name) := by
  have hspec := transcodeFile_result_spec okOracle "/up/track.mp3" "/tmp/hls-jobs/job-6"
    "track.mp3" trackRes
    (transcodeFile okOracle "/up/track.mp3" "/tmp/hls-jobs/job-6" "track.mp3").2
    (by decide)
  exact ⟨hspec.1, by decide, hspec.2.1, hspec.2.2⟩

/-- Counterexample to C6: a file whose build failed (here: every spawn
fails) still had its package directory created up front; createZipArchive
includes every sub-directory except 'uploads', so the failed package
folder 'bad' is included in the archive. -/
theorem createZipArchive_failed_dir_counterexample :
    (transcodeFile failOracle "/tmp/hls-jobs/job-3/uploads/bad.mp3"
      "/tmp/hls-jobs/job-3" "bad.mp3").1 = .error "spawn ffmpeg ENOENT" ∧
    Event.mkdirEv "/tmp/hls-jobs/job-3/bad/low" ∈
      (transcodeFile failOracle "/tmp/hls-jobs/job-3/uploads/bad.mp3"
        "/tmp/hls-jobs/job-3" "bad.mp3").2 ∧
    "bad" ∈ (createZipArchive "/tmp/hls-jobs/job-3"
      [⟨"good", true⟩, ⟨"bad", true⟩, ⟨"uploads", true⟩]).2 := by decide

/-- Claim C6 (amended): the archive's contents are exactly the immediate
sub-directories of the job directory other than the reserved 'uploads'
staging directory, each added wholesale with its internal structure; and
because transcodeFile creates the package and variant directories before
any encode runs, a failed file's partially-created package directory is
among them — failed packages are not excluded. -/
theorem createZipArchive_spec (outputDir : String) (listing : List DirEntry) :
    (∀ nm, nm ∈ (createZipArchive outputDir listing).2 ↔
      ∃ e, e ∈ listing ∧ e.name = nm ∧ e.isDir = true ∧ nm ≠ "uploads") ∧
    (createZipArchive outputDir listing).1 = pathJoin outputDir "hls-output.zip" ∧
    (∀ (oracle : Nat → EncodeResult) (inp out fn : String) (v : LadderEntry),
      v ∈ BITRATE_LADDER →
      Event.mkdirEv (pathJoin (pathJoin out (basenameNoMp3 fn)) v.name) ∈
        (transcodeFile oracle inp out fn).2) := by
  refine ⟨?_, rfl, ?_⟩
  · intro nm
    simp only [createZipArchive, List.mem_map, List.mem_filter]
    constructor
    · rintro ⟨e, ⟨he, hcond⟩, rfl⟩
      rw [Bool.and_eq_true, bne_iff_ne] at hcond
      exact ⟨e, he, rfl, hcond.1, hcond.2⟩
    · rintro ⟨e, he, hnm, hdir, hup⟩
      subst hnm
      exact ⟨e, ⟨he, by rw [Bool.and_eq_true, bne_iff_ne]; exact ⟨hdir, hup⟩⟩, rfl⟩
  · intro oracle inp out fn v hv
    rcases hres : transcodeFileLoop oracle inp (pathJoin out (basenameNoMp3 fn))
        BITRATE_LADDER 0 with ⟨res, evs2⟩
    cases res with
    | ok p =>
      obtain ⟨vs, tot⟩ := p
      simp only [transcodeFile, hres]
      refine List.mem_append.mpr (Or.inl (List.mem_append.mpr (Or.inl ?_)))
      exact List.mem_map.mpr ⟨v, hv, rfl⟩
    | error e =>
      simp only [transcodeFile, hres]
      exact List.mem_append.mpr (Or.inl (List.mem_map.mpr ⟨v, hv, rfl⟩))

/-- Witness for C6's amended theorem at a concrete listing and build. -/
theorem createZipArchive_spec_witness :
    "track" ∈ (createZipArchive "/tmp/hls-jobs/job-4"
      [⟨"track", true⟩, ⟨"uploads", true⟩, ⟨"x.mp3", false⟩]).2 ∧
    Event.mkdirEv (pathJoin (pathJoin "/tmp/hls-jobs/job-4"
        (basenameNoMp3 "track.mp3")) "low") ∈
      (transcodeFile okOracle "/up/track.mp3" "/tmp/hls-jobs/job-4" "track.mp3").2 :=
  ⟨((createZipArchive_spec "/tmp/hls-jobs/job-4"
      [⟨"track", true⟩, ⟨"uploads", true⟩, ⟨"x.mp3", false⟩]).1 "track").mpr
      ⟨⟨"track", true⟩, by decide, rfl, rfl, by decide⟩,
   (createZipArchive_spec "/tmp/hls-jobs/job-4"
      [⟨"track", true⟩, ⟨"uploads", true⟩, ⟨"x.mp3", false⟩]).2.2
      okOracle "/up/track.mp3" "/tmp/hls-jobs/job-4" "track.mp3"
      ⟨"low", "32k", 48000⟩ (by decide)⟩

/-- Claim C10: the synchronous single-file transcode never touches the job
store — the store is returned unchanged, so a status query for the sync
job's id keeps returning not-found; on a pipeline error it returns a
success=false record carrying the error message instead of throwing; and
it never invokes archive creation. -/
theorem transcodeSync_spec (oracle : Nat → EncodeResult)
    (walk : String → List String) (jobId : String) (f : UploadFile)
    (m : List (String × Job)) :
    (transcodeSync oracle walk jobId f m).2.1 = m ∧
    (getJobStatus m jobId = none →
      getJobStatus (transcodeSync oracle walk jobId f m).2.1 jobId = none) ∧
    (∀ e, (transcodeFile oracle f.path (pathJoin TEMP_DIR jobId) f.originalName).1 =
        .error e → (transcodeSync oracle walk jobId f m).1 = .err e) ∧
    (∀ d, Event.zipCreateEv d ∉ (transcodeSync oracle walk jobId f m).2.2) := by
  rcases hres : transcodeFile oracle f.path (pathJoin TEMP_DIR jobId) f.originalName
    with ⟨res, evs⟩
  have hnz : ∀ d, Event.zipCreateEv d ∉ evs := by
    intro d hd
    exact transcodeFile_no_zip oracle f.path (pathJoin TEMP_DIR jobId) f.originalName d
      (by rw [hres]; exact hd)
  cases res with
  | ok r =>
    refine ⟨by simp [transcodeSync, hres], ?_, ?_, ?_⟩
    · intro h
      simpa [transcodeSync, hres] using h
    · intro e he
      simp at he
    · intro d hd
      simp only [transcodeSync, hres] at hd
      rcases List.mem_cons.mp hd with h1 | h1
      · cases h1
      · exact hnz d h1
  | error e0 =>
    refine ⟨by simp [transcodeSync, hres], ?_, ?_, ?_⟩
    · intro h
      simpa [transcodeSync, hres] using h
    · intro e he
      simp at he
      subst he
      simp [transcodeSync, hres]
    · intro d hd
      simp only [transcodeSync, hres] at hd
      rcases List.mem_cons.mp hd with h1 | h1
      · cases h1
      · exact hnz d h1

theorem countStatus_pos (fs : List FileEntry) (s : String)
    (h : ∃ f ∈ fs, f.status = s) : 0 < countStatus fs s := by
  obtain ⟨f, hf, hs⟩ := h
  have hmem : f ∈ fs.filter (fun g => g.status == s) :=
    List.mem_filter.mpr ⟨hf, by rw [string_beq_eq_decide]; simp [hs]⟩
  simpa [countStatus] using List.length_pos.mpr (List.ne_nil_of_mem hmem)

theorem countStatus_eq_length (fs : List FileEntry) (s : String)
    (h : ∀ f ∈ fs, f.status = s) : countStatus fs s = fs.length := by
  induction fs with
  | nil => rfl
  | cons f rest ih =>
    rw [countStatus_cons, if_pos (h f (by simp))]
    simp [ih fun g hg => h g (by simp [hg])]
    omega

theorem updateFileStatus_props (m : List (String × Job)) (jobId fn : String)
    (u : FileUpdates) (j : Job) (h : mapGet m jobId = some j) :
    ∃ j2, mapGet (updateFileStatus m jobId fn u) jobId = some j2 ∧
      j2.completedFiles = countStatus j2.files "completed" ∧
      j2.failedFiles = countStatus j2.files "failed" ∧
      j2.files.length = j.files.length ∧
      j2.zipPath = j.zipPath := by
  refine ⟨{ j with files := updateFirstFile j.files fn u, completedFiles := countStatus (updateFirstFile j.files fn u) "completed", failedFiles := countStatus (updateFirstFile j.files fn u) "failed" },
          by simp [updateFileStatus, h, mapGet_mapSet_self], rfl, rfl, ?_, rfl⟩
  exact updateFirstFile_length j.files fn u

theorem processFiles_props (env : TranscodeEnv) (jobId jobDir : String) :
    ∀ (files : List UploadFile) (idx : Nat) (m : List (String × Job)) (j : Job),
      mapGet m jobId = some j →
      j.completedFiles = countStatus j.files "completed" →
      j.failedFiles = countStatus j.files "failed" →
      ∃ j2, mapGet (processFiles env jobId jobDir files idx m).1 jobId = some j2 ∧
        j2.completedFiles = countStatus j2.files "completed" ∧
        j2.failedFiles = countStatus j2.files "failed" ∧
        j2.files.length = j.files.length ∧
        j2.zipPath = j.zipPath := by
  intro files
  induction files with
  | nil =>
    intro idx m j h hc hf
    exact ⟨j, by simpa [processFiles] using h, hc, hf, rfl, rfl⟩
  | cons f rest ih =>
    intro idx m j h hc hf
    obtain ⟨j1, h1, hc1, hf1, hl1, hz1⟩ :=
      updateFileStatus_props m jobId f.originalName { status := some "processing" } j h
    cases hfr : (transcodeFile (env.encOracle idx) f.path jobDir f.originalName).1 with
    | ok r =>
      have heq : (processFiles env jobId jobDir (f :: rest) idx m).1 =
          (processFiles env jobId jobDir rest (idx + 1)
            (updateFileStatus
              (updateFileStatus m jobId f.originalName { status := some "processing" })
              jobId f.originalName
              { status := some "completed", hlsFolder := some (some r.hlsFolder),
                segmentCount := some r.segmentCount })).1 := by
        simp only [processFiles, hfr]
      obtain ⟨j2, h2, hc2, hf2, hl2, hz2⟩ :=
        updateFileStatus_props _ jobId f.originalName
          { status := some "completed", hlsFolder := some (some r.hlsFolder),
            segmentCount := some r.segmentCount } j1 h1
      obtain ⟨j3, h3, hc3, hf3, hl3, hz3⟩ := ih (idx + 1) _ j2 h2 hc2 hf2
      exact ⟨j3, by rw [heq]; exact h3, hc3, hf3,
        by rw [hl3, hl2, hl1], by rw [hz3, hz2, hz1]⟩
    | error e =>
      have heq : (processFiles env jobId jobDir (f :: rest) idx m).1 =
          (processFiles env jobId jobDir rest (idx + 1)
            (updateFileStatus
              (updateFileStatus m jobId f.originalName { status := some "processing" })
              jobId f.originalName
              { status := some "failed", error := some (some e) })).1 := by
        simp only [processFiles, hfr]
      obtain ⟨j2, h2, hc2, hf2, hl2, hz2⟩ :=
        updateFileStatus_props _ jobId f.originalName
          { status := some "failed", error := some (some e) } j1 h1
      obtain ⟨j3, h3, hc3, hf3, hl3, hz3⟩ := ih (idx + 1) _ j2 h2 hc2 hf2
      exact ⟨j3, by rw [heq]; exact h3, hc3, hf3,
        by rw [hl3, hl2, hl1], by rw [hz3, hz2, hz1]⟩

/-- Counterexample to C2: with every encode succeeding but the archiver
failing, the finished job has every FileEntry 'completed' yet terminal
status 'failed' — the claimed classification ('all completed implies
status completed') does not hold on the archiving-failure path. -/
theorem transcode_zip_failure_counterexample :
    (mapGet (transcode zipFailEnv "job-8" 0 [⟨"a.mp3", "/u/a.mp3"⟩] []).1 "job-8").map
      (fun j => (j.files.all (fun f => f.status == "completed"), j.status)) =
      some (true, "failed") := by decide

/-- Claim C2 (amended): when transcode finishes and the archive step did
not itself fail, the terminal status is classified by the file outcomes:
all entries completed gives 'completed'; at least one completed and at
least one failed gives 'completed_with_errors'; zero completed gives
'failed' with the all-files-failed top-level error and a null archive
path (the archiver is never invoked there). If the archiver rejects after
at least one completed file, the job is instead 'failed' with that error.
Whenever the final status is a success state, the archive path is
non-null. -/
theorem transcode_terminal_status (env : TranscodeEnv) (jobId : String)
    (now : Int) (files : List UploadFile) (m0 : List (String × Job)) (job : Job)
    (hne : files ≠ [])
    (hjob : mapGet (transcode env jobId now files m0).1 jobId = some job) :
    ((∀ f ∈ job.files, f.status = "completed") → env.zipErr = none →
        job.status = "completed") ∧
    ((∃ f ∈ job.files, f.status = "completed") →
      (∃ f ∈ job.files, f.status = "failed") → env.zipErr = none →
        job.status = "completed_with_errors") ∧
    ((∀ f ∈ job.files, f.status ≠ "completed") →
        job.status = "failed" ∧ job.error = some "All files failed to transcode" ∧
        job.zipPath = none) ∧
    (∀ e, (∃ f ∈ job.files, f.status = "completed") → env.zipErr = some e →
        job.status = "failed" ∧ job.error = some e) ∧
    ((job.status = "completed" ∨ job.status = "completed_with_errors") →
        job.zipPath ≠ none) := by
  have hj0 : mapGet (initJob m0 jobId now files).2 jobId =
      some (initJob m0 jobId now files).1 := by
    simp [initJob, mapGet_mapSet_self]
  obtain ⟨j1, hget1, hc1, hf1, hl1, hz1⟩ :=
    processFiles_props env jobId (pathJoin TEMP_DIR jobId) files 0 _ _ hj0
      (countStatus_map_initFileEntry files "completed" (by decide)).symm
      (countStatus_map_initFileEntry files "failed" (by decide)).symm
  have hlen : j1.files.length = files.length := by
    rw [hl1]
    simp [initJob]
  have hzip1 : j1.zipPath = none := by
    rw [hz1]
    simp [initJob]
  by_cases hsc : 0 < countStatus j1.files "completed"
  · cases hz : env.zipErr with
    | none =>
      have htr : (transcode env jobId now files m0).1 =
          mapSet (processFiles env jobId (pathJoin TEMP_DIR jobId) files 0
              (initJob m0 jobId now files).2).1 jobId
            { j1 with zipPath := some (pathJoin (pathJoin TEMP_DIR jobId) "hls-output.zip"), status := if 0 < j1.failedFiles then "completed_with_errors" else "completed", completedAt := some env.endNow } := by
        simp only [transcode, hget1, hz, if_pos hsc]
      rw [htr, mapGet_mapSet_self] at hjob
      injection hjob with hjob2
      subst hjob2
      refine ⟨?_, ?_, ?_, ?_, ?_⟩
      · intro hall _
        have hzero : countStatus j1.files "failed" = 0 := by
          refine countStatus_eq_zero _ _ ?_
          intro f hfm
          rw [hall f hfm]
          decide
        show (if 0 < j1.failedFiles then "completed_with_errors" else "completed") = _
        rw [if_neg (by omega)]
      · intro _ hexf _
        have hpos : 0 < countStatus j1.files "failed" := countStatus_pos _ _ hexf
        show (if 0 < j1.failedFiles then "completed_with_errors" else "completed") = _
        rw [if_pos (by omega)]
      · intro hnone
        exfalso
        have hzero : countStatus j1.files "completed" = 0 := countStatus_eq_zero _ _ hnone
        omega
      · intro e _ hze
        cases hze
      · intro _
        simp
    | some e0 =>
      have htr : (transcode env jobId now files m0).1 =
          mapSet (processFiles env jobId (pathJoin TEMP_DIR jobId) files 0
              (initJob m0 jobId now files).2).1 jobId
            { j1 with status := "failed", error := some e0, completedAt := some env.endNow } := by
        simp only [transcode, hget1, hz, if_pos hsc]
      rw [htr, mapGet_mapSet_self] at hjob
      injection hjob with hjob2
      subst hjob2
      refine ⟨?_, ?_, ?_, ?_, ?_⟩
      · intro _ hzn
        cases hzn
      · intro _ _ hzn
        cases hzn
      · intro hnone
        exfalso
        have hzero : countStatus j1.files "completed" = 0 := countStatus_eq_zero _ _ hnone
        omega
      · intro e _ hze
        injection hze with hze2
        subst hze2
        exact ⟨rfl, rfl⟩
      · intro hd
        rcases hd with hd | hd
        · exact absurd (show "failed" = "completed" from hd) (by decide)
        · exact absurd (show "failed" = "completed_with_errors" from hd) (by decide)
  · have htr : (transcode env jobId now files m0).1 =
        mapSet (processFiles env jobId (pathJoin TEMP_DIR jobId) files 0
            (initJob m0 jobId now files).2).1 jobId
          { j1 with status := "failed", error := some "All files failed to transcode", completedAt := some env.endNow } := by
      simp only [transcode, hget1, if_neg hsc]
    rw [htr, mapGet_mapSet_self] at hjob
    injection hjob with hjob2
    subst hjob2
    refine ⟨?_, ?_, ?_, ?_, ?_⟩
    · intro hall _
      exfalso
      apply hsc
      have heq : countStatus j1.files "completed" = j1.files.length :=
        countStatus_eq_length _ _ hall
      have hpos : 0 < files.length := List.length_pos.mpr hne
      omega
    · intro hexc _ _
      exact absurd (countStatus_pos _ _ hexc) hsc
    · intro _
      exact ⟨rfl, rfl, hzip1⟩
    · intro e hexc _
      exact absurd (countStatus_pos _ _ hexc) hsc
    · intro hd
      rcases hd with hd | hd
      · exact absurd (show "failed" = "completed" from hd) (by decide)
      · exact absurd (show "failed" = "completed_with_errors" from hd) (by decide)

/-- Witness for C2 at a concrete mixed run: one file succeeds, one fails,
the archiver succeeds, and the terminal status is completed_with_errors. -/
theorem transcode_terminal_status_witness :
    (mapGet (transcode mixedEnv "job-10" 0
      [⟨"a.mp3", "/u/a.mp3"⟩, ⟨"b.mp3", "/u/b.mp3"⟩] []).1 "job-10").map
      (fun j => j.status) = some "completed_with_errors" := by
  rcases hjob : mapGet (transcode mixedEnv "job-10" 0
      [⟨"a.mp3", "/u/a.mp3"⟩, ⟨"b.mp3", "/u/b.mp3"⟩] []).1 "job-10" with _ | job
  · exact absurd hjob (by decide)
  · have hth := transcode_terminal_status mixedEnv "job-10" 0
      [⟨"a.mp3", "/u/a.mp3"⟩, ⟨"b.mp3", "/u/b.mp3"⟩] [] job (by decide) hjob
    have hcomp : (mapGet (transcode mixedEnv "job-10" 0
        [⟨"a.mp3", "/u/a.mp3"⟩, ⟨"b.mp3", "/u/b.mp3"⟩] []).1 "job-10").map
        (fun j => (j.files.any (fun g => g.status == "completed"),
                   j.files.any (fun g => g.status == "failed"))) =
        some (true, true) := by decide
    rw [hjob] at hcomp
    simp only [Option.map_some', Option.some.injEq, Prod.mk.injEq] at hcomp
    have hex1 : ∃ f ∈ job.files, f.status = "completed" := by
      obtain ⟨f, hf, hp⟩ := List.any_eq_true.mp hcomp.1
      exact ⟨f, hf, eq_of_beq hp⟩
    have hex2 : ∃ f ∈ job.files, f.status = "failed" := by
      obtain ⟨f, hf, hp⟩ := List.any_eq_true.mp hcomp.2
      exact ⟨f, hf, eq_of_beq hp⟩
    have hs := hth.2.1 hex1 hex2 rfl
    simp [hs]

/-- Witness for C10 at the always-failing oracle and the empty store. -/
theorem transcodeSync_spec_witness :
    (transcodeSync failOracle (fun _ => []) "job-7"
      ⟨"a.mp3", "/up/a.mp3"⟩ []).2.1 = ([] : List (String × Job)) ∧
    getJobStatus (transcodeSync failOracle (fun _ => []) "job-7"
      ⟨"a.mp3", "/up/a.mp3"⟩ []).2.1 "job-7" = none ∧
    (transcodeSync failOracle (fun _ => []) "job-7"
      ⟨"a.mp3", "/up/a.mp3"⟩ []).1 = .err "spawn ffmpeg ENOENT" :=
  ⟨(transcodeSync_spec failOracle (fun _ => []) "job-7" ⟨"a.mp3", "/up/a.mp3"⟩ []).1,
   (transcodeSync_spec failOracle (fun _ => []) "job-7" ⟨"a.mp3", "/up/a.mp3"⟩ []).2.1 rfl,
   (transcodeSync_spec failOracle (fun _ => []) "job-7" ⟨"a.mp3", "/up/a.mp3"⟩ []).2.2.1
     "spawn ffmpeg ENOENT" (by decide)⟩

theorem mapGet_mem (m : List (String × Job)) (k : String) (v : Job)
    (h : mapGet m k = some v) : (k, v) ∈ m := by
  induction m with
  | nil => simp [mapGet] at h
  | cons kv rest ih =>
    obtain ⟨k0, w⟩ := kv
    by_cases h0 : k0 = k
    · subst h0
      simp only [mapGet, if_pos rfl] at h
      injection h with h2
      subst h2
      simp
    · simp only [mapGet, if_neg h0] at h
      exact List.mem_cons_of_mem _ (ih h)

theorem mapGet_of_mem_nodup (m : List (String × Job)) (k : String) (v : Job)
    (hm : (k, v) ∈ m) (hnd : (m.map Prod.fst).Nodup) : mapGet m k = some v := by
  induction m with
  | nil => simp at hm
  | cons kv rest ih =>
    obtain ⟨k0, w⟩ := kv
    rw [List.map_cons, List.nodup_cons] at hnd
    rcases List.mem_cons.mp hm with h0 | h0
    · injection h0 with h1 h2
      subst h1
      subst h2
      simp [mapGet]
    · by_cases hk : k0 = k
      · subst hk
        exfalso
        exact hnd.1 (List.mem_map.mpr ⟨(k0, v), h0, rfl⟩)
      · simp only [mapGet, if_neg hk]
        exact ih h0 hnd.2

theorem mapDelete_append_cons (pre post : List (String × Job)) (k : String)
    (j : Job) (hk : ∀ kv ∈ pre, kv.1 ≠ k) :
    mapDelete (pre ++ (k, j) :: post) k = pre ++ post := by
  induction pre with
  | nil => simp [mapDelete]
  | cons kv rest ih =>
    obtain ⟨k0, w⟩ := kv
    have hne : k0 ≠ k := hk (k0, w) (by simp)
    simp only [List.cons_append, mapDelete, if_neg hne]
    congr 1
    exact ih fun kv2 hkv2 => hk kv2 (by simp [hkv2])

theorem pathJoin_right_inj (p a b : String) (h : pathJoin p a = pathJoin p b) :
    a = b := by
  have hd := congrArg String.data h
  simp only [pathJoin, String.data_append, List.append_assoc] at hd
  have h1 := List.append_cancel_left hd
  have h2 := List.append_cancel_left h1
  cases a with
  | mk ad =>
    cases b with
    | mk bd =>
      simp only at h2
      rw [h2]

theorem mapGet_filter_of_keep (m : List (String × Job))
    (p : String × Job → Bool) (k : String) (v : Job)
    (h : mapGet m k = some v) (hp : p (k, v) = true) :
    mapGet (m.filter p) k = some v := by
  induction m with
  | nil => simp [mapGet] at h
  | cons kv rest ih =>
    obtain ⟨k0, w⟩ := kv
    by_cases h0 : k0 = k
    · subst h0
      simp only [mapGet, if_pos rfl] at h
      injection h with h2
      subst h2
      simp [List.filter_cons, hp, mapGet]
    · simp only [mapGet, if_neg h0] at h
      rw [List.filter_cons]
      by_cases hpc : p (k0, w) = true
      · rw [if_pos hpc]
        simp only [mapGet, if_neg h0]
        exact ih h
      · rw [if_neg hpc]
        exact ih h

theorem mapGet_filter_of_drop (m : List (String × Job))
    (p : String × Job → Bool) (k : String) (v : Job)
    (hnd : (m.map Prod.fst).Nodup)
    (h : mapGet m k = some v) (hp : p (k, v) = false) :
    mapGet (m.filter p) k = none := by
  cases hx : mapGet (m.filter p) k with
  | none => rfl
  | some v2 =>
    exfalso
    have hmem : (k, v2) ∈ m.filter p := mapGet_mem _ _ _ hx
    obtain ⟨hin, hpv2⟩ := List.mem_filter.mp hmem
    have : mapGet m k = some v2 := mapGet_of_mem_nodup _ _ _ hin hnd
    rw [h] at this
    injection this with h2
    subst h2
    rw [hp] at hpv2
    cases hpv2

theorem sweepList_spec (now maxAge : Int) :
    ∀ (l pre : List (String × Job)) (dirs : List String),
      (((pre ++ l).map Prod.fst).Nodup) →
      sweepList now maxAge l ⟨pre ++ l, dirs⟩ =
        ⟨pre ++ l.filter (fun kv => !decide (maxAge < now - kv.2.startedAt)),
         dirs.filter (fun d =>
           (l.filter (fun kv => decide (maxAge < now - kv.2.startedAt))).all
             (fun kv => d != pathJoin TEMP_DIR kv.1))⟩ := by
  intro l
  induction l with
  | nil =>
    intro pre dirs hnd
    simp [sweepList]
  | cons kv rest ih =>
    obtain ⟨k, j⟩ := kv
    intro pre dirs hnd
    have hnd2 := hnd
    rw [List.map_append, List.map_cons, List.nodup_append] at hnd2
    by_cases hold : maxAge < now - j.startedAt
    · have hkpre : ∀ kv2 ∈ pre, kv2.1 ≠ k := by
        intro kv2 hkv2 heq
        exact hnd2.2.2 (List.mem_map.mpr ⟨kv2, hkv2, heq⟩) (by simp)
      have hstep : sweepList now maxAge ((k, j) :: rest) ⟨pre ++ (k, j) :: rest, dirs⟩ =
          sweepList now maxAge rest
            ⟨pre ++ rest, dirs.filter (fun d => d != pathJoin TEMP_DIR k)⟩ := by
        simp only [sweepList, if_pos hold, cleanupJob]
        rw [mapDelete_append_cons pre rest k j hkpre]
      have hndr : (((pre ++ rest).map Prod.fst).Nodup) := by
        refine List.Nodup.sublist ?_ hnd
        exact List.Sublist.map _ (List.Sublist.append_left (List.sublist_cons_self _ _) _)
      rw [hstep, ih pre _ hndr]
      have hfilters :
          (dirs.filter (fun d => d != pathJoin TEMP_DIR k)).filter
            (fun d => (rest.filter (fun kv => decide (maxAge < now - kv.2.startedAt))).all
              (fun kv => d != pathJoin TEMP_DIR kv.1)) =
          dirs.filter (fun d =>
            ((((k, j) :: rest).filter (fun kv => decide (maxAge < now - kv.2.startedAt)))).all
              (fun kv => d != pathJoin TEMP_DIR kv.1)) := by
        rw [List.filter_filter, List.filter_cons, if_pos (by simp [hold])]
        refine List.filter_congr ?_
        intro d _
        simp [Bool.and_comm]
      have hkeep : ((k, j) :: rest).filter
          (fun kv => !decide (maxAge < now - kv.2.startedAt)) =
          rest.filter (fun kv => !decide (maxAge < now - kv.2.startedAt)) := by
        rw [List.filter_cons, if_neg (by simp [hold])]
      rw [hfilters, hkeep]
    · have hstep : sweepList now maxAge ((k, j) :: rest) ⟨pre ++ (k, j) :: rest, dirs⟩ =
          sweepList now maxAge rest ⟨(pre ++ [(k, j)]) ++ rest, dirs⟩ := by
        simp only [sweepList, if_neg hold]
        rw [show pre ++ (k, j) :: rest = (pre ++ [(k, j)]) ++ rest by simp]
      rw [hstep, ih (pre ++ [(k, j)]) dirs (by simpa using hnd)]
      have hkeep : ((k, j) :: rest).filter
          (fun kv => !decide (maxAge < now - kv.2.startedAt)) =
          (k, j) :: rest.filter (fun kv => !decide (maxAge < now - kv.2.startedAt)) := by
        rw [List.filter_cons, if_pos (by simp [hold])]
      have holdf : ((k, j) :: rest).filter
          (fun kv => decide (maxAge < now - kv.2.startedAt)) =
          rest.filter (fun kv => decide (maxAge < now - kv.2.startedAt)) := by
        rw [List.filter_cons, if_neg (by simp [hold])]
      rw [hkeep, holdf]
      simp

/-- Claim C8: the expiry sweep with threshold T minutes deletes exactly
the jobs whose age (now minus creation timestamp) strictly exceeds
T*60*1000 ms — removing each from the store and deleting its on-disk job
directory — and leaves every other job in the store with its record and
directory untouched, regardless of its status. -/
theorem cleanupOldJobs_spec (s : SysState) (now maxAgeMinutes : Int)
    (hnd : (s.jobsMap.map Prod.fst).Nodup) (id : String) (j : Job)
    (hj : mapGet s.jobsMap id = some j) :
    (maxAgeMinutes * 60 * 1000 < now - j.startedAt →
      mapGet (cleanupOldJobs s now maxAgeMinutes).jobsMap id = none ∧
      pathJoin TEMP_DIR id ∉ (cleanupOldJobs s now maxAgeMinutes).dirs) ∧
    (now - j.startedAt ≤ maxAgeMinutes * 60 * 1000 →
      mapGet (cleanupOldJobs s now maxAgeMinutes).jobsMap id = some j ∧
      (pathJoin TEMP_DIR id ∈ s.dirs →
        pathJoin TEMP_DIR id ∈ (cleanupOldJobs s now maxAgeMinutes).dirs)) := by
  obtain ⟨jm, dirs⟩ := s
  simp only at hnd hj ⊢
  have hres : cleanupOldJobs ⟨jm, dirs⟩ now maxAgeMinutes =
      ⟨jm.filter (fun kv => !decide (maxAgeMinutes * 60 * 1000 < now - kv.2.startedAt)),
       dirs.filter (fun d =>
         (jm.filter (fun kv => decide (maxAgeMinutes * 60 * 1000 < now - kv.2.startedAt))).all
           (fun kv => d != pathJoin TEMP_DIR kv.1))⟩ :=
    sweepList_spec now (maxAgeMinutes * 60 * 1000) jm [] dirs hnd
  rw [hres]
  constructor
  · intro hold
    constructor
    · exact mapGet_filter_of_drop jm _ id j hnd hj (by simp [hold])
    · intro hmem
      have hp := List.of_mem_filter hmem
      have hmemold : (id, j) ∈ jm.filter
          (fun kv => decide (maxAgeMinutes * 60 * 1000 < now - kv.2.startedAt)) :=
        List.mem_filter.mpr ⟨mapGet_mem _ _ _ hj, by simp [hold]⟩
      have hx := (List.all_eq_true.mp hp) (id, j) hmemold
      simp at hx
  · intro hfresh
    constructor
    · exact mapGet_filter_of_keep jm _ id j hj (by simp [not_lt.mpr hfresh])
    · intro hdir
      refine List.mem_filter.mpr ⟨hdir, ?_⟩
      rw [List.all_eq_true]
      intro kv hkv
      obtain ⟨k2, j2⟩ := kv
      obtain ⟨hin, hpold⟩ := List.mem_filter.mp hkv
      rw [bne_iff_ne]
      intro heq
      have hkid : id = k2 := pathJoin_right_inj TEMP_DIR id k2 heq
      subst hkid
      have hg : mapGet jm id = some j2 := mapGet_of_mem_nodup _ _ _ hin hnd
      rw [hj] at hg
      injection hg with hg2
      subst hg2
      simp only [decide_eq_true_eq] at hpold
      omega

/-- Witness for C8: sweeping at now = 7200000 ms with a 60-minute
threshold removes the stale job-a (record and directory) and keeps the
fresh job-b (record and directory). -/
theorem cleanupOldJobs_spec_witness :
    mapGet (cleanupOldJobs demoSys 7200000 60).jobsMap "job-a" = none ∧
    pathJoin TEMP_DIR "job-a" ∉ (cleanupOldJobs demoSys 7200000 60).dirs ∧
    mapGet (cleanupOldJobs demoSys 7200000 60).jobsMap "job-b" = some freshJob ∧
    pathJoin TEMP_DIR "job-b" ∈ (cleanupOldJobs demoSys 7200000 60).dirs := by
  have ha := cleanupOldJobs_spec demoSys 7200000 60 (by decide) "job-a" oldJob (by decide)
  have hb := cleanupOldJobs_spec demoSys 7200000 60 (by decide) "job-b" freshJob (by decide)
  obtain ⟨ha1, ha2⟩ := ha.1 (by decide)
  obtain ⟨hb1, hb2⟩ := hb.2 (by decide)
  exact ⟨ha1, ha2, hb1, hb2 (by decide)⟩

end HLS
